import Mathlib

/-!
Verification of the TwitterThreadChunker repository.

The Python sources are shallowly embedded over `List Char` strings:

* `src/twitter_chunker.py` : `chunk_text_for_twitter`, `get_thread_stats`,
  `format_thread_for_export`;
* `src/twitter_poster.py`  : the pure validation phase of `post_thread`
  and `validate_thread_for_posting`.

Python strings become `List Char`; `len` becomes `List.length`; warning and
error strings, which are produced from fixed format templates with distinct
prefixes, become inductive values carrying exactly the interpolated payloads.
All definitions are executable and structurally recursive so that concrete
instances evaluate inside the kernel.
-/

/-- A Python string, modelled as its list of characters. -/
abbrev Str := List Char

/-- Whitespace test used by Python `str.split()` / `str.strip()`.
Covers the ASCII whitespace characters; Python additionally treats some
rarer Unicode code points as whitespace, which no claim depends on. -/
def isPySpace (c : Char) : Bool :=
  c = ' ' || c = '\t' || c = '\n' || c = '\r' || c = '\x0b' || c = '\x0c'

/-- Worker for `pySplit`: `cur` holds the characters of the token currently
being read, in reverse order. -/
def pySplitAux : Str → Str → List Str
  | [], cur => if cur.isEmpty then [] else [cur.reverse]
  | c :: rest, cur =>
    if isPySpace c then
      (if cur.isEmpty then [] else [cur.reverse]) ++ pySplitAux rest []
    else
      pySplitAux rest (c :: cur)

/-- Python `text.split()`: split on runs of whitespace, discarding empty
tokens (so leading and trailing whitespace produces nothing). -/
def pySplit (s : Str) : List Str := pySplitAux s []

/-- Python `sep.join(parts)`. -/
def pyJoin (sep : Str) : List Str → Str
  | [] => []
  | [t] => t
  | t :: ts => t ++ sep ++ pyJoin sep ts

/-- Python `" ".join(words)`, as used by the chunker. -/
def joinWords (ws : List Str) : Str := pyJoin [' '] ws

/-- The decimal character for a digit value `0 ≤ d ≤ 9`. -/
def digitChar : Nat → Char
  | 0 => '0' | 1 => '1' | 2 => '2' | 3 => '3' | 4 => '4'
  | 5 => '5' | 6 => '6' | 7 => '7' | 8 => '8' | _ => '9'

/-- Fuel-driven worker for `decimal`; pushes the digits of `n` (most
significant first) in front of `acc`.  Fuel `n` is always sufficient. -/
def decAux : Nat → Nat → Str → Str
  | 0, _, acc => acc
  | fuel + 1, n, acc =>
    if n = 0 then acc else decAux fuel (n / 10) (digitChar (n % 10) :: acc)

/-- Decimal rendering of a natural number, exactly as Python `str`/f-string
interpolation renders a non-negative `int`: no sign, no leading zeros. -/
def decimal (n : Nat) : Str := if n = 0 then ['0'] else decAux n n []

/-- A word produced by `pySplit`: non-empty and free of whitespace. -/
def goodWord (w : Str) : Prop := w ≠ [] ∧ ∀ c ∈ w, isPySpace c = false

/-! ### The chunker (`src/twitter_chunker.py`) -/

/-- `MAX_TWEET_LENGTH` from `chunk_text_for_twitter`. -/
def MAX_TWEET_LENGTH : Nat := 280

/-- `INDICATOR_RESERVE` from `chunk_text_for_twitter`. -/
def INDICATOR_RESERVE : Nat := 15

/-- `content_limit = MAX_TWEET_LENGTH - INDICATOR_RESERVE`. -/
def content_limit : Nat := MAX_TWEET_LENGTH - INDICATOR_RESERVE

/-- The warnings emitted by `chunk_text_for_twitter`, with the payloads the
format strings interpolate:

* `longWord preview limit` embeds the Python message
  `Warning: Word {preview}... is longer than content limit ({limit})`
  where `preview = word[:20]`;
* `overLong idx total len` embeds
  `Tweet {idx}/{total} exceeds 280 characters ({len})`. -/
inductive CWarn
  | longWord (preview : Str) (limit : Nat)
  | overLong (idx total len : Nat)
deriving DecidableEq

/-- The loop state of the word-packing pass of `chunk_text_for_twitter`.
The source keeps `chunks` (joined strings), `current_chunk_words` and
`warnings`; the embedding additionally records in `chunksW` the word list
each chunk was joined from (the source applies `" ".join` to exactly that
list as the chunk is appended, so `chunks = chunksW.map joinWords` always). -/
structure ChunkState where
  chunks : List Str
  chunksW : List (List Str)
  current_chunk_words : List Str
  warnings : List CWarn
deriving DecidableEq

/-- One iteration of the `for word in words` loop of
`chunk_text_for_twitter`, with `cl` the content limit. -/
def stepWord (cl : Nat) (st : ChunkState) (word : Str) : ChunkState :=
  let potential_chunk_content := joinWords (st.current_chunk_words ++ [word])
  if potential_chunk_content.length > cl then
    { chunks := st.chunks ++
        (if st.current_chunk_words.isEmpty then []
         else [joinWords st.current_chunk_words]),
      chunksW := st.chunksW ++
        (if st.current_chunk_words.isEmpty then []
         else [st.current_chunk_words]),
      current_chunk_words := [word],
      warnings := st.warnings ++
        (if word.length > cl then [CWarn.longWord (word.take 20) cl] else []) }
  else
    { st with current_chunk_words := st.current_chunk_words ++ [word] }

/-- The packing-loop state after processing all words of `text`. -/
def chunkStateOf (text : Str) : ChunkState :=
  (pySplit text).foldl (stepWord content_limit) ⟨[], [], [], []⟩

/-- The final chunk list of the packing pass, as word lists (the trailing
non-empty `current_chunk_words` is flushed, as in the source). -/
def chunkListsW (text : Str) : List (List Str) :=
  (chunkStateOf text).chunksW ++
    (if (chunkStateOf text).current_chunk_words.isEmpty then []
     else [(chunkStateOf text).current_chunk_words])

/-- The final chunk list of the packing pass, as joined strings. -/
def chunksOfText (text : Str) : List Str :=
  (chunkStateOf text).chunks ++
    (if (chunkStateOf text).current_chunk_words.isEmpty then []
     else [joinWords (chunkStateOf text).current_chunk_words])

/-- The thread indicator `f"{i}/{total}"`. -/
def indicatorStr (i total : Nat) : Str := decimal i ++ '/' :: decimal total

/-- The formatted tweet `f"{chunk} {indicator}"` for the chunk at 0-based
index `i`. -/
def formatChunk (total i : Nat) (chunk : Str) : Str :=
  chunk ++ ' ' :: indicatorStr (i + 1) total

/-- The `for i, chunk in enumerate(chunks)` formatting loop: returns the
formatted tweets and the over-length warnings it appends, in order. -/
def formatLoop (total : Nat) : Nat → List Str → List Str × List CWarn
  | _, [] => ([], [])
  | i, c :: rest =>
    let ft := formatChunk total i c
    let pr := formatLoop total (i + 1) rest
    (ft :: pr.1,
      (if ft.length > MAX_TWEET_LENGTH
       then [CWarn.overLong (i + 1) total ft.length] else []) ++ pr.2)

/-- `chunk_text_for_twitter` from `src/twitter_chunker.py`.  The guard
`if not text or not text.strip()` holds exactly when every character of
`text` is whitespace (vacuously for the empty string). -/
def chunk_text_for_twitter (text : Str) : List Str × List CWarn :=
  if text.all isPySpace then ([], [])
  else
    let chunks := chunksOfText text
    if chunks.length = 0 then ([], (chunkStateOf text).warnings)
    else
      let pr := formatLoop chunks.length 0 chunks
      (pr.1, (chunkStateOf text).warnings ++ pr.2)

example : chunk_text_for_twitter ['h', 'i'] =
    ([['h', 'i', ' ', '1', '/', '1']], []) := by decide

example : chunk_text_for_twitter [' ', '\t'] = ([], []) := by decide

example : pySplit [' ', 'a', ' ', ' ', 'b', ' '] = [['a'], ['b']] := by decide

/-! ### Thread statistics (`get_thread_stats`) -/

/-- Python `max(xs)` on a list of naturals; the `[]` branch is unreachable
under the guard in `get_thread_stats` (Python would raise there). -/
def pyMax : List Nat → Nat
  | [] => 0
  | l :: ls => ls.foldl Nat.max l

/-- Python `min(xs)` on a list of naturals; the `[]` branch is unreachable
under the guard in `get_thread_stats`. -/
def pyMin : List Nat → Nat
  | [] => 0
  | l :: ls => ls.foldl Nat.min l

/-- The dictionary returned by `get_thread_stats` for a non-empty input.
`avg_length` models the Python float division `sum(lengths)/len(lengths)`
as the exact rational it computes. -/
structure ThreadStats where
  total_tweets : Nat
  total_characters : Nat
  avg_length : ℚ
  max_length : Nat
  min_length : Nat
  tweets_over_limit : Nat

/-- `get_thread_stats` from `src/twitter_chunker.py`; the empty dictionary
returned for an empty tweet list becomes `none`. -/
def get_thread_stats (tweets : List Str) : Option ThreadStats :=
  if tweets.isEmpty then none
  else
    let lengths := tweets.map List.length
    some
      { total_tweets := tweets.length
        total_characters := lengths.sum
        avg_length := (lengths.sum : ℚ) / (lengths.length : ℚ)
        max_length := pyMax lengths
        min_length := pyMin lengths
        tweets_over_limit := (lengths.filter (fun l => 280 < l)).length }

/-! ### Export formatting and Python `str.split(sep)` -/

/-- `format_thread_for_export` from `src/twitter_chunker.py`:
`separator.join(tweets)`. -/
def format_thread_for_export (tweets : List Str) (separator : Str) : Str :=
  pyJoin separator tweets

/-- The default `separator` argument of `format_thread_for_export`. -/
def DEFAULT_SEPARATOR : Str := ['\n', '\n', '-', '-', '-', '\n', '\n']

/-- Fuel-driven worker for `pySplitSep`; `acc` holds the current field in
reverse.  Fuel `s.length` is always sufficient, and the fuel-exhausted
result coincides with the `s = []` case then. -/
def splitGo (sep : Str) : Nat → Str → Str → List Str
  | 0, s, acc => [acc.reverse ++ s]
  | fuel + 1, s, acc =>
    match s with
    | [] => [acc.reverse]
    | c :: rest =>
      if sep ≠ [] ∧ sep.isPrefixOf (c :: rest) then
        acc.reverse :: splitGo sep fuel ((c :: rest).drop sep.length) []
      else
        splitGo sep fuel rest (c :: acc)

/-- Python `s.split(sep)` for an explicit separator: fields between
non-overlapping occurrences of `sep`, scanned left to right.  (Python
raises `ValueError` for `sep = ""`; no theorem below relies on the value
this embedding returns in that case.) -/
def pySplitSep (sep s : Str) : List Str := splitGo sep s.length s []

example : pySplitSep ['a', 'a'] ['a', 'a', 'a', 'a'] = [[], [], []] := by decide

example : pySplitSep [','] ['a', ',', 'b'] = [['a'], ['b']] := by decide

/-- The 0-based character positions inside `sep.join(segs)` at which the
`n - 1` separators inserted by the join begin. -/
def joinPositions (sepLen : Nat) : List Str → List Nat
  | [] => []
  | [_] => []
  | t :: rest =>
    t.length :: (joinPositions sepLen rest).map (· + (t.length + sepLen))

/-! ### The poster (`src/twitter_poster.py`) -/

/-- The error strings of `post_thread`, with the interpolated payloads:
`noTweets` embeds `No tweets to post`; `tweetTooLong i len` embeds
`Tweet {i} exceeds 280 characters ({len})`; `failedPost i` embeds
`Failed to post tweet {i}` (arising only inside the posting loop). -/
inductive PostError
  | noTweets
  | tweetTooLong (i len : Nat)
  | failedPost (i : Nat)
deriving DecidableEq

/-- The `results` dictionary of `post_thread` (`posted_tweets` keeps the
posted texts; it is always empty before the posting loop runs). -/
structure PostResults where
  success_count : Nat
  posted_tweets : List Str
  errors : List PostError
  thread_url : Option Str
deriving DecidableEq

/-- Concatenation of `f i x` over a list with a running 0-based index, as
produced by Python `for i, x in enumerate(l)` loops that append to a list. -/
def enumIdx {α β : Type} (f : Nat → α → List β) : Nat → List α → List β
  | _, [] => []
  | i, x :: xs => f i x ++ enumIdx f (i + 1) xs

/-- The `Validate all tweets first` loop of `post_thread`. -/
def postLengthErrors (tweets : List Str) : List PostError :=
  enumIdx
    (fun i t =>
      if t.length > 280 then [PostError.tweetTooLong (i + 1) t.length] else [])
    0 tweets

/-- `post_thread` from `src/twitter_poster.py`, modelled up to the point
where the posting loop would start (everything past that point performs
network I/O).  The first component is the `results` value at that point;
the second is `true` exactly when control reaches the posting loop, i.e.
when neither early `return results` fires. -/
def post_thread_prevalidation (tweets : List Str) : PostResults × Bool :=
  if tweets.isEmpty then
    (⟨0, [], [PostError.noTweets], none⟩, false)
  else
    let errs := postLengthErrors tweets
    if errs.isEmpty then (⟨0, [], [], none⟩, true)
    else (⟨0, [], errs, none⟩, false)

/-- The error strings of `validate_thread_for_posting`, with payloads:
`noTweets` embeds `No tweets to validate`; `tooLong` embeds
`Thread is too long (max 25 tweets recommended)`; `tooLongTweet i len`
embeds `Tweet {i} exceeds 280 characters ({len})`; `emptyTweet i` embeds
`Tweet {i} is empty`. -/
inductive VErr
  | noTweets
  | tooLong
  | tooLongTweet (i len : Nat)
  | emptyTweet (i : Nat)
deriving DecidableEq

/-- `validate_thread_for_posting` from `src/twitter_poster.py`.  The guard
`if not tweet.strip()` holds exactly when every character of the tweet is
whitespace. -/
def validate_thread_for_posting (tweets : List Str) : List VErr :=
  if tweets.isEmpty then [VErr.noTweets]
  else
    (if tweets.length > 25 then [VErr.tooLong] else []) ++
      enumIdx
        (fun i t =>
          (if t.length > 280 then [VErr.tooLongTweet (i + 1) t.length]
           else []) ++
          (if t.all isPySpace then [VErr.emptyTweet (i + 1)] else []))
        0 tweets

example :
    validate_thread_for_posting [['h', 'i'], [' ']] = [VErr.emptyTweet 2] := by
  decide

example : (post_thread_prevalidation (List.replicate 26 ['a'])).2 = true := by
  decide

/-! ### Lemmas about `pyJoin`, `joinWords` and `pySplit` -/

lemma pyJoin_cons_cons (sep t u : Str) (r : List Str) :
    pyJoin sep (t :: u :: r) = t ++ sep ++ pyJoin sep (u :: r) := rfl

lemma joinWords_nil : joinWords [] = [] := rfl

lemma joinWords_singleton (w : Str) : joinWords [w] = w := rfl

lemma joinWords_cons_cons (w u : Str) (r : List Str) :
    joinWords (w :: u :: r) = w ++ ' ' :: joinWords (u :: r) := by
  simp [joinWords, pyJoin_cons_cons]

/-- A non-empty join starts with the characters of its first word. -/
lemma joinWords_cons (w : Str) (r : List Str) :
    ∃ tail, joinWords (w :: r) = w ++ tail := by
  cases r with
  | nil => exact ⟨[], by simp [joinWords_singleton]⟩
  | cons u r' => exact ⟨' ' :: joinWords (u :: r'), by simp [joinWords_cons_cons]⟩

lemma pySplitAux_nonspace (w : Str) (hw : ∀ c ∈ w, isPySpace c = false) :
    ∀ s cur, pySplitAux (w ++ s) cur = pySplitAux s (w.reverse ++ cur) := by
  induction w with
  | nil => intro s cur; simp
  | cons c w' ih =>
    intro s cur
    have hc : isPySpace c = false := hw c (by simp)
    have hw' : ∀ c ∈ w', isPySpace c = false := fun d hd => hw d (by simp [hd])
    simp only [List.cons_append, pySplitAux, hc, Bool.false_eq_true, if_false,
      List.reverse_cons, List.append_assoc, List.singleton_append]
    exact ih hw' s (c :: cur)

lemma pySplitAux_space (s : Str) (cur : Str) :
    pySplitAux (' ' :: s) cur =
      (if cur.isEmpty then [] else [cur.reverse]) ++ pySplitAux s [] := by
  simp [pySplitAux, isPySpace]

/-- Splitting the space-join of good words recovers exactly the words. -/
lemma pySplit_joinWords (ws : List Str) (h : ∀ w ∈ ws, goodWord w) :
    pySplit (joinWords ws) = ws := by
  induction ws with
  | nil => rfl
  | cons w r ih =>
    obtain ⟨hne, hchars⟩ := h w (by simp)
    have hrev : w.reverse.isEmpty = false := by
      cases hrw : w.reverse with
      | nil => exact absurd (List.reverse_eq_nil_iff.mp hrw) hne
      | cons a l => simp
    cases r with
    | nil =>
      show pySplitAux (joinWords [w]) [] = [w]
      rw [joinWords_singleton, ← List.append_nil w,
        pySplitAux_nonspace w hchars [] []]
      simp [pySplitAux, hrev]
    | cons u r' =>
      have hr : ∀ x ∈ u :: r', goodWord x := fun x hx => h x (by simp [hx])
      show pySplitAux (joinWords (w :: u :: r')) [] = w :: u :: r'
      rw [joinWords_cons_cons, pySplitAux_nonspace w hchars _ []]
      rw [pySplitAux_space]
      simp only [List.append_nil, hrev, Bool.false_eq_true, if_false,
        List.reverse_reverse]
      exact congrArg (w :: ·) (ih hr)

lemma pySplitAux_allSpace (s : Str) (h : s.all isPySpace = true) :
    pySplitAux s [] = [] := by
  induction s with
  | nil => rfl
  | cons c rest ih =>
    have hc : isPySpace c = true := by
      have := List.all_eq_true.mp h c (by simp); simpa using this
    have hrest : rest.all isPySpace = true :=
      List.all_eq_true.mpr fun x hx => List.all_eq_true.mp h x (by simp [hx])
    simp [pySplitAux, hc, ih hrest]

/-- An all-whitespace string tokenizes to nothing. -/
lemma pySplit_allSpace (s : Str) (h : s.all isPySpace = true) :
    pySplit s = [] := pySplitAux_allSpace s h

lemma pySplitAux_ne_nil (s : Str) :
    ∀ cur, s.all isPySpace = false ∨ cur ≠ [] → pySplitAux s cur ≠ [] := by
  induction s with
  | nil =>
    intro cur h
    have hcur : cur ≠ [] := by
      rcases h with h | h
      · simp at h
      · exact h
    have : cur.isEmpty = false := by cases cur with
      | nil => exact absurd rfl hcur
      | cons a l => simp
    simp [pySplitAux, this]
  | cons c rest ih =>
    intro cur h
    by_cases hc : isPySpace c = true
    · rw [show pySplitAux (c :: rest) cur =
          (if cur.isEmpty then [] else [cur.reverse]) ++ pySplitAux rest [] by
        simp [pySplitAux, hc]]
      by_cases hcur : cur.isEmpty
      · have hrest : rest.all isPySpace = false := by
          rcases h with h | h
          · simpa [hc] using h
          · exact absurd (List.isEmpty_iff.mp hcur) h
        simp only [hcur, if_true, List.nil_append]
        exact ih [] (Or.inl hrest)
      · simp [hcur]
    · have hc' : isPySpace c = false := by simpa using hc
      rw [show pySplitAux (c :: rest) cur = pySplitAux rest (c :: cur) by
        simp [pySplitAux, hc']]
      exact ih (c :: cur) (Or.inr (by simp))

/-- A string that is not all whitespace tokenizes to a non-empty word list. -/
lemma pySplit_ne_nil (s : Str) (h : s.all isPySpace = false) :
    pySplit s ≠ [] := pySplitAux_ne_nil s [] (Or.inl h)

/-- Every token produced by `pySplit` is a non-empty whitespace-free word. -/
lemma pySplit_goodWord (s : Str) : ∀ w ∈ pySplit s, goodWord w := by
  suffices h : ∀ s cur, (∀ c ∈ cur, isPySpace c = false) →
      ∀ w ∈ pySplitAux s cur, goodWord w from h s [] (by simp)
  intro s
  induction s with
  | nil =>
    intro cur hcur w hw
    by_cases hc : cur.isEmpty
    · simp [pySplitAux, hc] at hw
    · simp only [pySplitAux, hc, if_false] at hw
      have hw' : w = cur.reverse := by simpa using hw
      subst hw'
      refine ⟨?_, ?_⟩
      · simp only [ne_eq, List.reverse_eq_nil_iff]
        exact fun hnil => by simp [hnil] at hc
      · intro c hc'; exact hcur c (List.mem_reverse.mp hc')
  | cons c rest ih =>
    intro cur hcur w hw
    by_cases hc : isPySpace c = true
    · rw [show pySplitAux (c :: rest) cur =
          (if cur.isEmpty then [] else [cur.reverse]) ++ pySplitAux rest [] by
        simp [pySplitAux, hc]] at hw
      rcases List.mem_append.mp hw with hl | hr
      · by_cases hce : cur.isEmpty
        · simp [hce] at hl
        · simp only [hce, if_false] at hl
          have hw' : w = cur.reverse := by simpa using hl
          subst hw'
          refine ⟨?_, fun d hd => hcur d (List.mem_reverse.mp hd)⟩
          simp only [ne_eq, List.reverse_eq_nil_iff]
          exact fun hnil => by simp [hnil] at hce
      · exact ih [] (by simp) w hr
    · have hc' : isPySpace c = false := by simpa using hc
      rw [show pySplitAux (c :: rest) cur = pySplitAux rest (c :: cur) by
        simp [pySplitAux, hc']] at hw
      refine ih (c :: cur) ?_ w hw
      intro d hd
      rcases List.mem_cons.mp hd with rfl | hd'
      · exact hc'
      · exact hcur d hd'

/-! ### Lemmas about the decimal rendering -/

lemma decAux_zero (fuel : Nat) (acc : Str) : decAux fuel 0 acc = acc := by
  cases fuel <;> simp [decAux]

/-- The fuel of `decAux` is irrelevant as long as it bounds the digit count. -/
lemma decAux_fuel (f : Nat) :
    ∀ g n acc, n < 10 ^ f → n < 10 ^ g → decAux f n acc = decAux g n acc := by
  induction f with
  | zero =>
    intro g n acc hf _
    have : n = 0 := by simpa using hf
    subst this
    rw [decAux_zero, decAux_zero]
  | succ f ih =>
    intro g n acc hf hg
    by_cases hn : n = 0
    · subst hn; rw [decAux_zero, decAux_zero]
    · cases g with
      | zero =>
        exact absurd (by simpa using hg) hn
      | succ g' =>
        have hdiv : ∀ k, n < 10 ^ (k + 1) → n / 10 < 10 ^ k := by
          intro k hk
          rw [Nat.div_lt_iff_lt_mul (by norm_num)]
          calc n < 10 ^ (k + 1) := hk
            _ = 10 ^ k * 10 := by ring
        simp only [decAux, hn, if_false]
        exact ih g' (n / 10) _ (hdiv f hf) (hdiv g' hg)

lemma decAux_acc (f : Nat) :
    ∀ n acc, decAux f n acc = decAux f n [] ++ acc := by
  induction f with
  | zero => intro n acc; simp [decAux]
  | succ f ih =>
    intro n acc
    by_cases hn : n = 0
    · subst hn; simp [decAux]
    · simp only [decAux, hn, if_false]
      rw [ih (n / 10) (digitChar (n % 10) :: acc),
        ih (n / 10) [digitChar (n % 10)]]
      simp

lemma digitChar_facts :
    ∀ d, d < 10 → (digitChar d).isDigit = true ∧ (1 ≤ d → digitChar d ≠ '0') := by
  decide

/-- For `n ≥ 1` (within fuel), `decAux` produces a non-empty digit string
whose leading digit is not zero. -/
lemma decAux_leading (f : Nat) :
    ∀ n, 1 ≤ n → n < 10 ^ f →
      ∃ d ds, decAux f n [] = d :: ds ∧ d ≠ '0' ∧
        ∀ c ∈ d :: ds, c.isDigit = true := by
  induction f with
  | zero =>
    intro n h1 hf
    have : n = 0 := by simpa using hf
    omega
  | succ f ih =>
    intro n h1 hf
    have hn : n ≠ 0 := by omega
    have hmod : n % 10 < 10 := Nat.mod_lt n (by norm_num)
    by_cases hsmall : n < 10
    · have hdiv0 : n / 10 = 0 := Nat.div_eq_of_lt hsmall
      have hmodn : n % 10 = n := Nat.mod_eq_of_lt hsmall
      refine ⟨digitChar n, [], ?_, ?_, ?_⟩
      · simp [decAux, hn, hdiv0, hmodn, decAux_zero]
      · exact (digitChar_facts n hsmall).2 h1
      · intro c hc
        have : c = digitChar n := by simpa using hc
        subst this
        exact (digitChar_facts n hsmall).1
    · have hge : 10 ≤ n := by omega
      have hdiv1 : 1 ≤ n / 10 := (Nat.one_le_div_iff (by norm_num)).mpr hge
      have hdivf : n / 10 < 10 ^ f := by
        rw [Nat.div_lt_iff_lt_mul (by norm_num)]
        calc n < 10 ^ (f + 1) := hf
          _ = 10 ^ f * 10 := by ring
      obtain ⟨d, ds, heq, hd0, hdig⟩ := ih (n / 10) hdiv1 hdivf
      refine ⟨d, ds ++ [digitChar (n % 10)], ?_, hd0, ?_⟩
      · simp only [decAux, hn, if_false]
        rw [decAux_acc, heq]
        simp
      · intro c hc
        rcases List.mem_cons.mp hc with rfl | hc'
        · exact hdig c (by simp)
        · rcases List.mem_append.mp hc' with h | h
          · exact hdig c (by simp [h])
          · have : c = digitChar (n % 10) := by simpa using h
            subst this
            exact (digitChar_facts _ hmod).1

/-- The decimal rendering of a positive number has no leading zero. -/
lemma decimal_pos_head (n : Nat) (h : 1 ≤ n) :
    ∃ d ds, decimal n = d :: ds ∧ d ≠ '0' ∧ ∀ c ∈ d :: ds, c.isDigit = true := by
  have hn : n ≠ 0 := by omega
  rw [decimal, if_neg hn]
  exact decAux_leading n n h (Nat.lt_pow_self (by norm_num) n)

/-- Every character of a decimal rendering is a digit. -/
lemma decimal_digits (n : Nat) : ∀ c ∈ decimal n, c.isDigit = true := by
  by_cases hn : n = 0
  · subst hn; decide
  · obtain ⟨d, ds, heq, _, hdig⟩ := decimal_pos_head n (by omega)
    rw [heq]; exact hdig

/-! ### The packing-loop invariant -/

/-- Invariant of the word-packing loop after processing the words `done`. -/
structure StInv (cl : Nat) (done : List Str) (st : ChunkState) : Prop where
  chunks_eq : st.chunks = st.chunksW.map joinWords
  partition : st.chunksW.flatten ++ st.current_chunk_words = done
  words_good : ∀ ws ∈ st.chunksW, ∀ w ∈ ws, goodWord w
  current_good : ∀ w ∈ st.current_chunk_words, goodWord w
  chunk_ne : ∀ ws ∈ st.chunksW, ws ≠ []
  size_ok : ∀ ws ∈ st.chunksW, (joinWords ws).length ≤ cl ∨
      ∃ w, ws = [w] ∧ w.length > cl ∧
        CWarn.longWord (w.take 20) cl ∈ st.warnings
  cur_size : st.current_chunk_words = [] ∨
      (joinWords st.current_chunk_words).length ≤ cl ∨
      ∃ w, st.current_chunk_words = [w] ∧ w.length > cl ∧
        CWarn.longWord (w.take 20) cl ∈ st.warnings

lemma stepWord_inv {cl : Nat} {done : List Str} {st : ChunkState} {word : Str}
    (hw : goodWord word) (h : StInv cl done st) :
    StInv cl (done ++ [word]) (stepWord cl st word) := by
  by_cases hpot : (joinWords (st.current_chunk_words ++ [word])).length > cl
  · by_cases hcur : st.current_chunk_words = []
    · have hword : word.length > cl := by
        rw [hcur] at hpot
        simpa [joinWords_singleton] using hpot
      have hstep : stepWord cl st word =
          ⟨st.chunks, st.chunksW, [word],
            st.warnings ++ [CWarn.longWord (word.take 20) cl]⟩ := by
        simp [stepWord, hcur, joinWords_singleton, hword]
      rw [hstep]
      refine ⟨h.chunks_eq, ?_, h.words_good, ?_, h.chunk_ne, ?_, ?_⟩
      · have hp := h.partition
        rw [hcur, List.append_nil] at hp
        simpa using hp
      · intro w hw'
        have : w = word := by simpa using hw'
        subst this; exact hw
      · intro ws hws
        rcases h.size_ok ws hws with hle | ⟨w, hwe, hwl, hmem⟩
        · exact Or.inl hle
        · exact Or.inr ⟨w, hwe, hwl, List.mem_append_left _ hmem⟩
      · exact Or.inr (Or.inr ⟨word, rfl, hword, List.mem_append_right _ (by simp)⟩)
    · have hcurE : st.current_chunk_words.isEmpty = false := by
        simpa [List.isEmpty_iff] using hcur
      have hstep : stepWord cl st word =
          ⟨st.chunks ++ [joinWords st.current_chunk_words],
            st.chunksW ++ [st.current_chunk_words], [word],
            st.warnings ++
              (if word.length > cl then [CWarn.longWord (word.take 20) cl]
               else [])⟩ := by
        simp [stepWord, hpot, hcurE]
      rw [hstep]
      refine ⟨?_, ?_, ?_, ?_, ?_, ?_, ?_⟩
      · simp [h.chunks_eq]
      · have hp := h.partition
        simp only [List.flatten_append, List.flatten_cons, List.flatten_nil,
          List.append_nil, List.append_assoc]
        rw [← List.append_assoc, hp]
      · intro ws hws
        rcases List.mem_append.mp hws with hl | hr
        · exact h.words_good ws hl
        · have : ws = st.current_chunk_words := by simpa using hr
          subst this; exact h.current_good
      · intro w hw'
        have : w = word := by simpa using hw'
        subst this; exact hw
      · intro ws hws
        rcases List.mem_append.mp hws with hl | hr
        · exact h.chunk_ne ws hl
        · have : ws = st.current_chunk_words := by simpa using hr
          subst this; exact hcur
      · intro ws hws
        rcases List.mem_append.mp hws with hl | hr
        · rcases h.size_ok ws hl with hle | ⟨w, hwe, hwl, hmem⟩
          · exact Or.inl hle
          · exact Or.inr ⟨w, hwe, hwl, List.mem_append_left _ hmem⟩
        · have : ws = st.current_chunk_words := by simpa using hr
          subst this
          rcases h.cur_size with hnil | hle | ⟨w, hwe, hwl, hmem⟩
          · exact absurd hnil hcur
          · exact Or.inl hle
          · exact Or.inr ⟨w, hwe, hwl, List.mem_append_left _ hmem⟩
      · by_cases hword : word.length > cl
        · exact Or.inr (Or.inr ⟨word, rfl, hword,
            List.mem_append_right _ (by simp [hword])⟩)
        · refine Or.inr (Or.inl ?_)
          rw [joinWords_singleton]
          exact Nat.le_of_not_lt hword
  · have hstep : stepWord cl st word =
        ⟨st.chunks, st.chunksW, st.current_chunk_words ++ [word],
          st.warnings⟩ := by
      simp [stepWord, hpot]
    rw [hstep]
    refine ⟨h.chunks_eq, ?_, h.words_good, ?_, h.chunk_ne, h.size_ok, ?_⟩
    · rw [← List.append_assoc, h.partition]
    · intro w hw'
      rcases List.mem_append.mp hw' with hl | hr
      · exact h.current_good w hl
      · have : w = word := by simpa using hr
        subst this; exact hw
    · exact Or.inr (Or.inl (Nat.le_of_not_lt hpot))

lemma foldl_stepWord_inv {cl : Nat} :
    ∀ (ws : List Str) (st : ChunkState) (done : List Str),
      (∀ w ∈ ws, goodWord w) → StInv cl done st →
      StInv cl (done ++ ws) (List.foldl (stepWord cl) st ws) := by
  intro ws
  induction ws with
  | nil => intro st done _ h; simpa using h
  | cons w ws ih =>
    intro st done hgood h
    have h1 : StInv cl (done ++ [w]) (stepWord cl st w) :=
      stepWord_inv (hgood w (by simp)) h
    have h2 := ih (stepWord cl st w) (done ++ [w])
      (fun x hx => hgood x (by simp [hx])) h1
    simpa using h2

lemma stInv_init (cl : Nat) : StInv cl [] (⟨[], [], [], []⟩ : ChunkState) := by
  refine ⟨rfl, rfl, ?_, ?_, ?_, ?_, Or.inl rfl⟩ <;> simp

/-- The invariant instantiated at the end of the packing pass. -/
lemma chunkStateOf_inv (text : Str) :
    StInv content_limit (pySplit text) (chunkStateOf text) := by
  have := @foldl_stepWord_inv content_limit (pySplit text)
    ⟨[], [], [], []⟩ [] (pySplit_goodWord text) (stInv_init content_limit)
  simpa [chunkStateOf] using this

lemma chunksOfText_eq_map (text : Str) :
    chunksOfText text = (chunkListsW text).map joinWords := by
  rw [chunksOfText, chunkListsW, List.map_append, (chunkStateOf_inv text).chunks_eq]
  by_cases hcur : (chunkStateOf text).current_chunk_words.isEmpty <;> simp [hcur]

lemma chunkListsW_flatten (text : Str) :
    (chunkListsW text).flatten = pySplit text := by
  have hpart := (chunkStateOf_inv text).partition
  rw [chunkListsW]
  by_cases hcur : (chunkStateOf text).current_chunk_words.isEmpty
  · have hnil := List.isEmpty_iff.mp hcur
    rw [hnil, List.append_nil] at hpart
    simpa [hcur] using hpart
  · have hcurE : (chunkStateOf text).current_chunk_words.isEmpty = false := by
      simpa using hcur
    simp only [hcurE, Bool.false_eq_true, if_false, List.flatten_append,
      List.flatten_cons, List.flatten_nil, List.append_nil]
    exact hpart

lemma chunkListsW_good (text : Str) :
    ∀ ws ∈ chunkListsW text, ws ≠ [] ∧ ∀ w ∈ ws, goodWord w := by
  intro ws hws
  rw [chunkListsW] at hws
  rcases List.mem_append.mp hws with hl | hr
  · exact ⟨(chunkStateOf_inv text).chunk_ne ws hl,
      (chunkStateOf_inv text).words_good ws hl⟩
  · by_cases hcur : (chunkStateOf text).current_chunk_words.isEmpty
    · simp [hcur] at hr
    · have : ws = (chunkStateOf text).current_chunk_words := by
        have hcurE : (chunkStateOf text).current_chunk_words.isEmpty = false := by
          simpa using hcur
        simpa [hcurE] using hr
      subst this
      exact ⟨fun hnil => by simp [hnil] at hcur,
        (chunkStateOf_inv text).current_good⟩

lemma chunkListsW_size (text : Str) :
    ∀ ws ∈ chunkListsW text, (joinWords ws).length ≤ content_limit ∨
      ∃ w, ws = [w] ∧ w.length > content_limit ∧
        CWarn.longWord (w.take 20) content_limit ∈
          (chunkStateOf text).warnings := by
  intro ws hws
  rw [chunkListsW] at hws
  rcases List.mem_append.mp hws with hl | hr
  · exact (chunkStateOf_inv text).size_ok ws hl
  · by_cases hcur : (chunkStateOf text).current_chunk_words.isEmpty
    · simp [hcur] at hr
    · have : ws = (chunkStateOf text).current_chunk_words := by
        have hcurE : (chunkStateOf text).current_chunk_words.isEmpty = false := by
          simpa using hcur
        simpa [hcurE] using hr
      subst this
      rcases (chunkStateOf_inv text).cur_size with hnil | hle | hex
      · exact absurd hnil (fun hn => by simp [hn] at hcur)
      · exact Or.inl hle
      · exact Or.inr hex

lemma chunkStateOf_allSpace (text : Str) (h : text.all isPySpace = true) :
    chunkStateOf text = ⟨[], [], [], []⟩ := by
  rw [chunkStateOf, pySplit_allSpace text h]
  rfl

/-! ### Lemmas about `getD` and the formatting loop -/

lemma getD_mem {α : Type} : ∀ (l : List α) (j : Nat) (d : α),
    j < l.length → l.getD j d ∈ l := by
  intro l
  induction l with
  | nil => intro j d h; simp at h
  | cons a l ih =>
    intro j d h
    cases j with
    | zero => simp [List.getD]
    | succ j =>
      have : l.getD j d ∈ l := ih j d (by simpa using h)
      simp [List.getD] at this ⊢
      exact Or.inr this

lemma getD_map {α β : Type} (f : α → β) :
    ∀ (l : List α) (j : Nat) (d1 : α) (d2 : β),
      j < l.length → (l.map f).getD j d2 = f (l.getD j d1) := by
  intro l
  induction l with
  | nil => intro j d1 d2 h; simp at h
  | cons a l ih =>
    intro j d1 d2 h
    cases j with
    | zero => simp [List.getD]
    | succ j => simpa [List.getD] using ih j d1 d2 (by simpa using h)

lemma formatLoop_cons (T i : Nat) (c : Str) (rest : List Str) :
    formatLoop T i (c :: rest) =
      (formatChunk T i c :: (formatLoop T (i + 1) rest).1,
        (if (formatChunk T i c).length > MAX_TWEET_LENGTH
         then [CWarn.overLong (i + 1) T (formatChunk T i c).length]
         else []) ++ (formatLoop T (i + 1) rest).2) := rfl

lemma formatLoop_fst_length (T : Nat) :
    ∀ (cs : List Str) (i : Nat), ((formatLoop T i cs).1).length = cs.length := by
  intro cs
  induction cs with
  | nil => intro i; rfl
  | cons c rest ih => intro i; simpa [formatLoop] using ih (i + 1)

lemma formatLoop_fst_getD (T : Nat) :
    ∀ (cs : List Str) (i j : Nat), j < cs.length →
      ((formatLoop T i cs).1).getD j [] =
        formatChunk T (i + j) (cs.getD j []) := by
  intro cs
  induction cs with
  | nil => intro i j h; simp at h
  | cons c rest ih =>
    intro i j h
    cases j with
    | zero => rw [formatLoop_cons]; simp
    | succ j =>
      have hrec := ih (i + 1) j (by simpa using h)
      rw [formatLoop_cons]
      simp only [List.getD_cons_succ]
      rw [show i + (j + 1) = i + 1 + j by omega]
      exact hrec

lemma formatLoop_warn (T : Nat) :
    ∀ (cs : List Str) (i j : Nat), j < cs.length →
      (formatChunk T (i + j) (cs.getD j [])).length > MAX_TWEET_LENGTH →
      CWarn.overLong (i + j + 1) T
          ((formatChunk T (i + j) (cs.getD j [])).length) ∈
        (formatLoop T i cs).2 := by
  intro cs
  induction cs with
  | nil => intro i j h; simp at h
  | cons c rest ih =>
    intro i j h hlen
    cases j with
    | zero =>
      simp only [List.getD_cons_zero, Nat.add_zero] at hlen ⊢
      rw [formatLoop_cons]
      simp [hlen]
    | succ j =>
      simp only [List.getD_cons_succ] at hlen ⊢
      rw [show i + (j + 1) = i + 1 + j by omega] at hlen ⊢
      have hmem := ih (i + 1) j (by simpa using h) hlen
      rw [formatLoop_cons]
      exact List.mem_append_right _ hmem

lemma formatLoop_fst_mem (T : Nat) :
    ∀ (cs : List Str) (i : Nat) (ft : Str), ft ∈ (formatLoop T i cs).1 →
      ∃ j c, c ∈ cs ∧ ft = formatChunk T j c := by
  intro cs
  induction cs with
  | nil => intro i ft h; simp [formatLoop] at h
  | cons c rest ih =>
    intro i ft h
    rw [formatLoop_cons] at h
    simp only [List.mem_cons] at h
    rcases h with h | h
    · exact ⟨i, c, by simp, h⟩
    · obtain ⟨j, c0, hc0, hft⟩ := ih (i + 1) ft h
      exact ⟨j, c0, by simp [hc0], hft⟩

lemma enumIdx_mem {α β : Type} (f : Nat → α → List β) :
    ∀ (l : List α) (i : Nat) (b : β), b ∈ enumIdx f i l →
      ∃ j x, x ∈ l ∧ b ∈ f j x := by
  intro l
  induction l with
  | nil => intro i b h; simp [enumIdx] at h
  | cons a l ih =>
    intro i b h
    rcases List.mem_append.mp h with hl | hr
    · exact ⟨i, a, by simp, hl⟩
    · obtain ⟨j, x, hx, hb⟩ := ih (i + 1) b hr
      exact ⟨j, x, by simp [hx], hb⟩

/-! ### Non-emptiness of the chunk list for non-blank input -/

lemma stepWord_current_ne (cl : Nat) (st : ChunkState) (word : Str) :
    (stepWord cl st word).current_chunk_words ≠ [] := by
  rw [stepWord]
  by_cases hpot : (joinWords (st.current_chunk_words ++ [word])).length > cl
  · simp [hpot]
  · simp [hpot]

lemma foldl_current_ne (cl : Nat) :
    ∀ (ws : List Str) (st : ChunkState), ws ≠ [] →
      ((List.foldl (stepWord cl) st ws).current_chunk_words) ≠ [] := by
  intro ws
  induction ws with
  | nil => intro st h; exact absurd rfl h
  | cons w ws ih =>
    intro st _
    cases hws : ws with
    | nil => simpa using stepWord_current_ne cl st w
    | cons u us =>
      have := ih (stepWord cl st w) (by simp [hws])
      simpa [hws] using this

lemma chunksOfText_allSpace (text : Str) (h : text.all isPySpace = true) :
    chunksOfText text = [] := by
  rw [chunksOfText, chunkStateOf_allSpace text h]
  rfl

lemma chunkListsW_allSpace (text : Str) (h : text.all isPySpace = true) :
    chunkListsW text = [] := by
  rw [chunkListsW, chunkStateOf_allSpace text h]
  rfl

lemma chunksOfText_ne_nil (text : Str) (h : text.all isPySpace = false) :
    chunksOfText text ≠ [] := by
  have hws := pySplit_ne_nil text h
  have hcur : (chunkStateOf text).current_chunk_words ≠ [] := by
    rw [chunkStateOf]
    exact foldl_current_ne content_limit (pySplit text) ⟨[], [], [], []⟩ hws
  have hcurE : (chunkStateOf text).current_chunk_words.isEmpty = false := by
    simpa [List.isEmpty_iff] using hcur
  rw [chunksOfText]
  simp [hcurE]

/-- The shape of the result in the main (non-blank input) branch. -/
lemma chunk_text_eq (text : Str) (hsp : text.all isPySpace = false) :
    chunk_text_for_twitter text =
      ((formatLoop (chunksOfText text).length 0 (chunksOfText text)).1,
        (chunkStateOf text).warnings ++
          (formatLoop (chunksOfText text).length 0 (chunksOfText text)).2) := by
  have hne := chunksOfText_ne_nil text hsp
  have hz : ¬ (chunksOfText text).length = 0 := by
    simpa [List.length_eq_zero] using hne
  rw [chunk_text_for_twitter]
  simp only [hsp, Bool.false_eq_true, if_false, hz]

/-- Warnings recorded during packing survive into the function result. -/
lemma packWarn_mem_output (text : Str) {w : CWarn}
    (hw : w ∈ (chunkStateOf text).warnings) :
    w ∈ (chunk_text_for_twitter text).2 := by
  rw [chunk_text_for_twitter]
  by_cases hsp : text.all isPySpace
  · rw [chunkStateOf_allSpace text (by simpa using hsp)] at hw
    simp at hw
  · simp only [hsp, if_false]
    by_cases hz : (chunksOfText text).length = 0
    · simpa [hz] using hw
    · simp only [hz, if_false]
      exact List.mem_append_left _ hw

/-! ### Claim theorems -/

/-- C1: for every input string, the concatenation of the word sequences
(tokenizations) of the chunks produced by the packing pass of
`chunk_text_for_twitter`, in chunk order, equals the tokenization of the
input: no word is dropped, duplicated, reordered, or split mid-word. -/
theorem chunk_words_exact_cover (text : Str) :
    ((chunksOfText text).map pySplit).flatten = pySplit text := by
  rw [chunksOfText_eq_map, List.map_map]
  have hmap : (chunkListsW text).map (pySplit ∘ joinWords) = chunkListsW text := by
    have h0 : (chunkListsW text).map (pySplit ∘ joinWords) =
        (chunkListsW text).map id :=
      List.map_congr_left
        (fun ws hws => pySplit_joinWords ws (chunkListsW_good text ws hws).2)
    have := h0
    simpa using this
  rw [hmap, chunkListsW_flatten]

/-- C2: every chunk of the packing pass has joined content of length at
most `content_limit`, except a chunk consisting of exactly one word longer
than `content_limit`; such a word is kept whole as the sole content of its
chunk, and the warning carrying its first 20 characters and the limit value
(the Python message
`Warning: Word {word[:20]}... is longer than content limit ({content_limit})`)
is in the returned warning list. -/
theorem chunk_content_limit_invariant (text : Str) (ws : List Str)
    (hws : ws ∈ chunkListsW text) :
    (joinWords ws).length ≤ content_limit ∨
      ∃ w, ws = [w] ∧ joinWords ws = w ∧ w.length > content_limit ∧
        CWarn.longWord (w.take 20) content_limit ∈
          (chunk_text_for_twitter text).2 := by
  rcases chunkListsW_size text ws hws with hle | ⟨w, hwe, hwl, hmem⟩
  · exact Or.inl hle
  · exact Or.inr ⟨w, hwe, by rw [hwe, joinWords_singleton], hwl,
      packWarn_mem_output text hmem⟩

/-- Witness for C2 at the input `"hi"`, whose single chunk is `["hi"]`. -/
theorem chunk_content_limit_invariant_witness :
    (joinWords [['h', 'i']]).length ≤ content_limit ∨
      ∃ w, [['h', 'i']] = [w] ∧ joinWords [['h', 'i']] = w ∧
        w.length > content_limit ∧
        CWarn.longWord (w.take 20) content_limit ∈
          (chunk_text_for_twitter ['h', 'i']).2 :=
  chunk_content_limit_invariant ['h', 'i'] [['h', 'i']] (by decide)

/-- C4: `content_limit = 280 - 15 = 265`, and the packing boundary is
strict: a prospective joined length of exactly `content_limit` appends the
word to the current chunk, while `content_limit + 1` closes the current
chunk (when non-empty) and starts a new chunk holding just that word. -/
theorem boundary_strictness :
    content_limit = 265 ∧
    ∀ (st : ChunkState) (w : Str),
      ((joinWords (st.current_chunk_words ++ [w])).length = content_limit →
        stepWord content_limit st w =
          { st with current_chunk_words := st.current_chunk_words ++ [w] }) ∧
      ((joinWords (st.current_chunk_words ++ [w])).length = content_limit + 1 →
        (stepWord content_limit st w).current_chunk_words = [w] ∧
        (st.current_chunk_words ≠ [] →
          (stepWord content_limit st w).chunks =
            st.chunks ++ [joinWords st.current_chunk_words]) ∧
        (st.current_chunk_words = [] →
          (stepWord content_limit st w).chunks = st.chunks)) := by
  refine ⟨rfl, ?_⟩
  intro st w
  constructor
  · intro h
    have hng : ¬ (joinWords (st.current_chunk_words ++ [w])).length >
        content_limit := by omega
    simp [stepWord, hng]
  · intro h
    have hg : (joinWords (st.current_chunk_words ++ [w])).length >
        content_limit := by omega
    refine ⟨by simp [stepWord, hg], ?_, ?_⟩
    · intro hne
      have hE : st.current_chunk_words.isEmpty = false := by
        simpa [List.isEmpty_iff] using hne
      simp [stepWord, hg, hE]
    · intro hnil
      simp only [stepWord, hnil]
      split <;> simp

set_option maxRecDepth 8000 in
/-- Witness for C4: a 265-character word is accepted into an empty chunk;
a 266-character word starts a fresh chunk. -/
theorem boundary_strictness_witness :
    stepWord content_limit ⟨[], [], [], []⟩ (List.replicate 265 'a') =
      { (⟨[], [], [], []⟩ : ChunkState) with
          current_chunk_words := [] ++ [List.replicate 265 'a'] } ∧
    (stepWord content_limit ⟨[], [], [], []⟩
        (List.replicate 266 'a')).current_chunk_words =
      [List.replicate 266 'a'] :=
  ⟨((boundary_strictness.2 ⟨[], [], [], []⟩ (List.replicate 265 'a')).1
      (by decide)),
    ((boundary_strictness.2 ⟨[], [], [], []⟩ (List.replicate 266 'a')).2
      (by decide)).1⟩

/-- C6: `chunk_text_for_twitter` is a total function (it is defined for
every input, so the embedding has no error case), and for an empty or
all-whitespace input it returns exactly `([], [])`. -/
theorem empty_input_behavior (text : Str) (h : text.all isPySpace = true) :
    chunk_text_for_twitter text = ([], []) := by
  simp [chunk_text_for_twitter, h]

/-- Witness for C6 at the empty string and at an all-whitespace string. -/
theorem empty_input_behavior_witness :
    chunk_text_for_twitter [] = ([], []) ∧
    chunk_text_for_twitter [' ', '\t', '\n'] = ([], []) :=
  ⟨empty_input_behavior [] (by decide),
    empty_input_behavior [' ', '\t', '\n'] (by decide)⟩

/-- C5: the formatted segments are in bijection with the chunks; the
segment at 0-based index `j` is exactly its chunk, one space, and the
indicator `decimal (j+1) ++ "/" ++ decimal total`, where `total` is the
number of returned segments (equal to the number of chunks); both numbers
are rendered with no leading zeros and consist of digits only, so `/` is
the only separator. -/
theorem segment_format_indicator (text : Str) :
    (chunk_text_for_twitter text).1.length = (chunksOfText text).length ∧
    ∀ j, j < (chunk_text_for_twitter text).1.length →
      ((chunk_text_for_twitter text).1.getD j [] =
        (chunksOfText text).getD j [] ++ ' ' ::
          (decimal (j + 1) ++ '/' ::
            decimal (chunk_text_for_twitter text).1.length)) ∧
      (∃ d ds, decimal (j + 1) = d :: ds ∧ d ≠ '0') ∧
      (∃ d ds, decimal (chunk_text_for_twitter text).1.length = d :: ds ∧
        d ≠ '0') ∧
      (∀ c ∈ decimal (j + 1), c.isDigit = true) ∧
      (∀ c ∈ decimal (chunk_text_for_twitter text).1.length,
        c.isDigit = true) := by
  by_cases hsp : text.all isPySpace
  · have h0 : chunk_text_for_twitter text = ([], []) := by
      simp [chunk_text_for_twitter, hsp]
    rw [h0, chunksOfText_allSpace text (by simpa using hsp)]
    exact ⟨rfl, fun j hj => absurd hj (by simp)⟩
  · have hsp' : text.all isPySpace = false := by simpa using hsp
    have heq := chunk_text_eq text hsp'
    have hfst : (chunk_text_for_twitter text).1 =
        (formatLoop (chunksOfText text).length 0 (chunksOfText text)).1 := by
      rw [heq]
    have hlen : (chunk_text_for_twitter text).1.length =
        (chunksOfText text).length := by
      rw [hfst, formatLoop_fst_length]
    refine ⟨hlen, ?_⟩
    intro j hj
    have hjn : j < (chunksOfText text).length := by rwa [hlen] at hj
    have hj1 : 1 ≤ j + 1 := by omega
    have hlen1 : 1 ≤ (chunk_text_for_twitter text).1.length := by omega
    refine ⟨?_, ?_, ?_, decimal_digits (j + 1), decimal_digits _⟩
    · have hget := formatLoop_fst_getD (chunksOfText text).length
        (chunksOfText text) 0 j hjn
      rw [hfst, hget, Nat.zero_add, formatChunk, indicatorStr,
        formatLoop_fst_length]
    · obtain ⟨d, ds, h1, h2, _⟩ := decimal_pos_head (j + 1) hj1
      exact ⟨d, ds, h1, h2⟩
    · obtain ⟨d, ds, h1, h2, _⟩ := decimal_pos_head _ hlen1
      exact ⟨d, ds, h1, h2⟩

/-- Witness for C5 at the input `"hi"` and segment index 0. -/
theorem segment_format_indicator_witness :
    (chunk_text_for_twitter ['h', 'i']).1.length =
      (chunksOfText ['h', 'i']).length ∧
    (((chunk_text_for_twitter ['h', 'i']).1.getD 0 [] =
      (chunksOfText ['h', 'i']).getD 0 [] ++ ' ' ::
        (decimal 1 ++ '/' ::
          decimal (chunk_text_for_twitter ['h', 'i']).1.length)) ∧
      (∃ d ds, decimal 1 = d :: ds ∧ d ≠ '0') ∧
      (∃ d ds, decimal (chunk_text_for_twitter ['h', 'i']).1.length =
        d :: ds ∧ d ≠ '0') ∧
      (∀ c ∈ decimal 1, c.isDigit = true) ∧
      (∀ c ∈ decimal (chunk_text_for_twitter ['h', 'i']).1.length,
        c.isDigit = true)) :=
  ⟨(segment_format_indicator ['h', 'i']).1,
    (segment_format_indicator ['h', 'i']).2 0 (by decide)⟩

/-! ### Lemmas for `pyMax` / `pyMin` -/

lemma foldl_max_ge_init : ∀ (ls : List Nat) (a : Nat), a ≤ ls.foldl Nat.max a := by
  intro ls
  induction ls with
  | nil => intro a; exact Nat.le_refl a
  | cons l ls ih =>
    intro a
    exact Nat.le_trans (Nat.le_max_left a l) (ih (Nat.max a l))

lemma foldl_max_ge_mem :
    ∀ (ls : List Nat) (a x : Nat), x ∈ ls → x ≤ ls.foldl Nat.max a := by
  intro ls
  induction ls with
  | nil => intro a x h; simp at h
  | cons l ls ih =>
    intro a x h
    rcases List.mem_cons.mp h with rfl | h'
    · exact Nat.le_trans (Nat.le_max_right a x) (foldl_max_ge_init ls (Nat.max a x))
    · exact ih (Nat.max a l) x h'

lemma foldl_max_mem :
    ∀ (ls : List Nat) (a : Nat),
      ls.foldl Nat.max a = a ∨ ls.foldl Nat.max a ∈ ls := by
  intro ls
  induction ls with
  | nil => intro a; exact Or.inl rfl
  | cons l ls ih =>
    intro a
    rcases ih (Nat.max a l) with h | h
    · rcases Nat.le_total a l with hle | hle
      · have hm : Nat.max a l = l := Nat.max_eq_right hle
        exact Or.inr (by
          rw [List.foldl_cons, h, hm]
          exact List.mem_cons_self l ls)
      · have hm : Nat.max a l = a := Nat.max_eq_left hle
        exact Or.inl (by rw [List.foldl_cons, h, hm])
    · exact Or.inr (List.mem_cons_of_mem l h)

lemma foldl_min_le_init : ∀ (ls : List Nat) (a : Nat), ls.foldl Nat.min a ≤ a := by
  intro ls
  induction ls with
  | nil => intro a; exact Nat.le_refl a
  | cons l ls ih =>
    intro a
    exact Nat.le_trans (ih (Nat.min a l)) (Nat.min_le_left a l)

lemma foldl_min_le_mem :
    ∀ (ls : List Nat) (a x : Nat), x ∈ ls → ls.foldl Nat.min a ≤ x := by
  intro ls
  induction ls with
  | nil => intro a x h; simp at h
  | cons l ls ih =>
    intro a x h
    rcases List.mem_cons.mp h with rfl | h'
    · exact Nat.le_trans (foldl_min_le_init ls (Nat.min a x)) (Nat.min_le_right a x)
    · exact ih (Nat.min a l) x h'

lemma foldl_min_mem :
    ∀ (ls : List Nat) (a : Nat),
      ls.foldl Nat.min a = a ∨ ls.foldl Nat.min a ∈ ls := by
  intro ls
  induction ls with
  | nil => intro a; exact Or.inl rfl
  | cons l ls ih =>
    intro a
    rcases ih (Nat.min a l) with h | h
    · rcases Nat.le_total a l with hle | hle
      · have hm : Nat.min a l = a := Nat.min_eq_left hle
        exact Or.inl (by rw [List.foldl_cons, h, hm])
      · have hm : Nat.min a l = l := Nat.min_eq_right hle
        exact Or.inr (by
          rw [List.foldl_cons, h, hm]
          exact List.mem_cons_self l ls)
    · exact Or.inr (List.mem_cons_of_mem l h)

/-- C9: `get_thread_stats` returns the empty result on an empty list, and
on a non-empty list returns the segment count, total length, exact mean
length, maximum, minimum, and the count of segments longer than 280. -/
theorem thread_stats_correct :
    get_thread_stats [] = none ∧
    ∀ tweets : List Str, tweets ≠ [] →
      ∃ s, get_thread_stats tweets = some s ∧
        s.total_tweets = tweets.length ∧
        s.total_characters = (tweets.map List.length).sum ∧
        s.avg_length * (tweets.length : ℚ) = (s.total_characters : ℚ) ∧
        s.max_length ∈ tweets.map List.length ∧
        (∀ l ∈ tweets.map List.length, l ≤ s.max_length) ∧
        s.min_length ∈ tweets.map List.length ∧
        (∀ l ∈ tweets.map List.length, s.min_length ≤ l) ∧
        s.tweets_over_limit =
          (tweets.map List.length).countP (fun l => 280 < l) := by
  refine ⟨rfl, ?_⟩
  intro tweets hne
  obtain ⟨t0, ts, rfl⟩ : ∃ t0 ts, tweets = t0 :: ts := by
    cases tweets with
    | nil => exact absurd rfl hne
    | cons a b => exact ⟨a, b, rfl⟩
  refine ⟨⟨(t0 :: ts).length, ((t0 :: ts).map List.length).sum,
      ((((t0 :: ts).map List.length).sum : ℚ) /
        ((((t0 :: ts).map List.length).length : Nat) : ℚ)),
      pyMax ((t0 :: ts).map List.length), pyMin ((t0 :: ts).map List.length),
      (((t0 :: ts).map List.length).filter (fun l => 280 < l)).length⟩,
    by rw [get_thread_stats]; simp, rfl, rfl, ?_, ?_, ?_, ?_, ?_, ?_⟩
  · have hlm : ((t0 :: ts).map List.length).length = (t0 :: ts).length :=
      List.length_map _ _
    have hz : ((t0 :: ts).length : ℚ) ≠ 0 := by
      have hpos : (0 : ℚ) < ((t0 :: ts).length : ℚ) := by
        exact_mod_cast Nat.succ_pos ts.length
      exact ne_of_gt hpos
    rw [hlm]
    exact div_mul_cancel₀ _ hz
  · show pyMax ((t0 :: ts).map List.length) ∈ (t0 :: ts).map List.length
    rw [List.map_cons, pyMax]
    rcases foldl_max_mem (ts.map List.length) t0.length with h | h
    · rw [h]; exact List.mem_cons_self _ _
    · exact List.mem_cons_of_mem _ h
  · intro l hl
    show l ≤ pyMax ((t0 :: ts).map List.length)
    rw [List.map_cons] at hl
    rw [List.map_cons, pyMax]
    rcases List.mem_cons.mp hl with rfl | h'
    · exact foldl_max_ge_init _ _
    · exact foldl_max_ge_mem _ _ _ h'
  · show pyMin ((t0 :: ts).map List.length) ∈ (t0 :: ts).map List.length
    rw [List.map_cons, pyMin]
    rcases foldl_min_mem (ts.map List.length) t0.length with h | h
    · rw [h]; exact List.mem_cons_self _ _
    · exact List.mem_cons_of_mem _ h
  · intro l hl
    show pyMin ((t0 :: ts).map List.length) ≤ l
    rw [List.map_cons] at hl
    rw [List.map_cons, pyMin]
    rcases List.mem_cons.mp hl with rfl | h'
    · exact foldl_min_le_init _ _
    · exact foldl_min_le_mem _ _ _ h'
  · exact (List.countP_eq_length_filter _ _).symm

/-- Witness for C9 at the two-element list `["a", "ab"]`. -/
theorem thread_stats_correct_witness :
    ∃ s, get_thread_stats [['a'], ['a', 'b']] = some s ∧
      s.total_tweets = ([['a'], ['a', 'b']] : List Str).length ∧
      s.total_characters = (([['a'], ['a', 'b']] : List Str).map List.length).sum ∧
      s.avg_length * (([['a'], ['a', 'b']] : List Str).length : ℚ) =
        (s.total_characters : ℚ) ∧
      s.max_length ∈ ([['a'], ['a', 'b']] : List Str).map List.length ∧
      (∀ l ∈ ([['a'], ['a', 'b']] : List Str).map List.length,
        l ≤ s.max_length) ∧
      s.min_length ∈ ([['a'], ['a', 'b']] : List Str).map List.length ∧
      (∀ l ∈ ([['a'], ['a', 'b']] : List Str).map List.length,
        s.min_length ≤ l) ∧
      s.tweets_over_limit =
        (([['a'], ['a', 'b']] : List Str).map List.length).countP
          (fun l => 280 < l) :=
  thread_stats_correct.2 [['a'], ['a', 'b']] (by decide)

/-- C10: every segment returned by `chunk_text_for_twitter` is non-empty
and contains a non-whitespace character, so the `Tweet {i} is empty` check
of `validate_thread_for_posting` can never fire on chunker output. -/
theorem segments_never_blank (text : Str) :
    (∀ seg ∈ (chunk_text_for_twitter text).1,
      seg ≠ [] ∧ seg.all isPySpace = false) ∧
    ∀ i, VErr.emptyTweet i ∉
      validate_thread_for_posting (chunk_text_for_twitter text).1 := by
  have hmain : ∀ seg ∈ (chunk_text_for_twitter text).1,
      seg ≠ [] ∧ seg.all isPySpace = false := by
    intro seg hseg
    by_cases hsp : text.all isPySpace
    · have h0 : chunk_text_for_twitter text = ([], []) := by
        simp [chunk_text_for_twitter, hsp]
      rw [h0] at hseg
      simp at hseg
    · have hsp' : text.all isPySpace = false := by simpa using hsp
      rw [chunk_text_eq text hsp'] at hseg
      obtain ⟨j, c, hc, rfl⟩ := formatLoop_fst_mem _ _ 0 seg hseg
      rw [chunksOfText_eq_map] at hc
      obtain ⟨ws, hws, rfl⟩ := List.mem_map.mp hc
      obtain ⟨hwsne, hgood⟩ := chunkListsW_good text ws hws
      obtain ⟨w, rest, rfl⟩ : ∃ w rest, ws = w :: rest := by
        cases ws with
        | nil => exact absurd rfl hwsne
        | cons a b => exact ⟨a, b, rfl⟩
      obtain ⟨hwne, hchars⟩ := hgood w (by simp)
      obtain ⟨ch, w2, rfl⟩ : ∃ ch w2, w = ch :: w2 := by
        cases w with
        | nil => exact absurd rfl hwne
        | cons a b => exact ⟨a, b, rfl⟩
      have hch : isPySpace ch = false := hchars ch (by simp)
      obtain ⟨tail, htail⟩ := joinWords_cons (ch :: w2) rest
      constructor
      · rw [formatChunk, htail]
        simp
      · rw [formatChunk, htail]
        simp [hch]
  refine ⟨hmain, ?_⟩
  intro i hmem
  rw [validate_thread_for_posting] at hmem
  by_cases hE : (chunk_text_for_twitter text).1.isEmpty
  · rw [if_pos hE] at hmem
    simp at hmem
  · rw [if_neg hE] at hmem
    rcases List.mem_append.mp hmem with hl | hr
    · by_cases h25 : (chunk_text_for_twitter text).1.length > 25
      · rw [if_pos h25] at hl
        simp at hl
      · rw [if_neg h25] at hl
        simp at hl
    · obtain ⟨j, t, ht, hb⟩ := enumIdx_mem _ _ 0 _ hr
      rcases List.mem_append.mp hb with h1 | h2
      · by_cases hlen : t.length > 280
        · rw [if_pos hlen] at h1
          simp at h1
        · rw [if_neg hlen] at h1
          simp at h1
      · have hall := (hmain t ht).2
        rw [hall] at h2
        simp at h2

/-- Witness for C10 at the input `"hi"` and its single segment. -/
theorem segments_never_blank_witness :
    (['h', 'i', ' ', '1', '/', '1'] ≠ ([] : Str) ∧
      (['h', 'i', ' ', '1', '/', '1'] : Str).all isPySpace = false) ∧
    VErr.emptyTweet 1 ∉
      validate_thread_for_posting (chunk_text_for_twitter ['h', 'i']).1 :=
  ⟨(segments_never_blank ['h', 'i']).1 ['h', 'i', ' ', '1', '/', '1']
      (by decide),
    (segments_never_blank ['h', 'i']).2 1⟩

/-! ### Lemmas about `pySplitSep` (Python `str.split(sep)`) -/

lemma splitGo_zero (sep s acc : Str) : splitGo sep 0 s acc = [acc.reverse ++ s] := rfl

lemma splitGo_succ_nil (sep : Str) (f : Nat) (acc : Str) :
    splitGo sep (f + 1) [] acc = [acc.reverse] := rfl

lemma splitGo_succ_cons (sep : Str) (f : Nat) (c : Char) (rest acc : Str) :
    splitGo sep (f + 1) (c :: rest) acc =
      if sep ≠ [] ∧ sep.isPrefixOf (c :: rest) then
        acc.reverse :: splitGo sep f ((c :: rest).drop sep.length) []
      else splitGo sep f rest (c :: acc) := rfl

/-- The fuel of `splitGo` is irrelevant once it bounds the input length. -/
lemma splitGo_fuel (sep : Str) :
    ∀ (f g : Nat) (s acc : Str), s.length ≤ f → s.length ≤ g →
      splitGo sep f s acc = splitGo sep g s acc := by
  intro f
  induction f with
  | zero =>
    intro g s acc hf _
    have hs : s = [] := by
      cases s with
      | nil => rfl
      | cons a l => simp at hf
    subst hs
    cases g with
    | zero => rfl
    | succ g' => simp [splitGo_zero, splitGo_succ_nil]
  | succ f ih =>
    intro g s acc hf hg
    cases s with
    | nil =>
      cases g with
      | zero => simp [splitGo_zero, splitGo_succ_nil]
      | succ g' => rfl
    | cons c rest =>
      cases g with
      | zero => simp at hg
      | succ g' =>
        rw [splitGo_succ_cons, splitGo_succ_cons]
        by_cases hcond : sep ≠ [] ∧ sep.isPrefixOf (c :: rest)
        · rw [if_pos hcond, if_pos hcond]
          have hsep1 : 1 ≤ sep.length := List.length_pos.mpr hcond.1
          have hdl : ((c :: rest).drop sep.length).length ≤ f := by
            rw [List.length_drop]
            simp only [List.length_cons] at hf ⊢
            omega
          have hdg : ((c :: rest).drop sep.length).length ≤ g' := by
            rw [List.length_drop]
            simp only [List.length_cons] at hg ⊢
            omega
          rw [ih g' _ [] hdl hdg]
        · rw [if_neg hcond, if_neg hcond]
          exact ih g' rest (c :: acc) (by simpa using hf) (by simpa using hg)

/-- If the separator occurs nowhere in `t`, the scan returns one field. -/
lemma splitGo_no_occurrence (sep : Str) (hsep : sep ≠ []) :
    ∀ (t : Str) (fuel : Nat) (acc : Str), t.length ≤ fuel →
      (∀ i, ¬ sep <+: t.drop i) →
      splitGo sep fuel t acc = [acc.reverse ++ t] := by
  intro t
  induction t with
  | nil =>
    intro fuel acc _ _
    cases fuel with
    | zero => rfl
    | succ f => simp [splitGo_succ_nil]
  | cons c rest ih =>
    intro fuel acc hf hno
    cases fuel with
    | zero => simp at hf
    | succ f =>
      rw [splitGo_succ_cons]
      rw [if_neg (fun hcond => hno 0 (by
        simpa [List.drop_zero] using List.isPrefixOf_iff_prefix.mp hcond.2))]
      rw [ih f (c :: acc) (by simpa using hf)
        (fun i => by simpa [List.drop_succ_cons] using hno (i + 1))]
      simp

/-- If the separator does not occur before the boundary, the scan splits
`t ++ sep ++ u` into the field `t` and the scan of `u`. -/
lemma splitGo_boundary (sep : Str) (hsep : sep ≠ []) :
    ∀ (t u : Str) (fuel : Nat) (acc : Str),
      (t ++ sep ++ u).length ≤ fuel →
      (∀ i, i < t.length → ¬ sep <+: (t ++ sep ++ u).drop i) →
      splitGo sep fuel (t ++ sep ++ u) acc =
        (acc.reverse ++ t) :: pySplitSep sep u := by
  intro t
  induction t with
  | nil =>
    intro u fuel acc hf _
    obtain ⟨c, sep', rfl⟩ : ∃ c sep', sep = c :: sep' := by
      cases sep with
      | nil => exact absurd rfl hsep
      | cons a l => exact ⟨a, l, rfl⟩
    simp only [List.nil_append] at hf ⊢
    cases fuel with
    | zero => simp at hf
    | succ f =>
      have hpre : (c :: sep').isPrefixOf ((c :: sep') ++ u) = true :=
        List.isPrefixOf_iff_prefix.mpr (List.prefix_append _ u)
      rw [show (c :: sep') ++ u = c :: (sep' ++ u) from rfl, splitGo_succ_cons,
        if_pos ⟨hsep, by simpa using hpre⟩]
      rw [show c :: (sep' ++ u) = (c :: sep') ++ u from rfl, List.drop_left]
      have hu : u.length ≤ f := by
        simp only [List.length_append, List.length_cons] at hf
        omega
      rw [splitGo_fuel (c :: sep') f u.length u [] hu (Nat.le_refl _)]
      simp [pySplitSep]
  | cons c t' ih =>
    intro u fuel acc hf hno
    simp only [List.cons_append] at hf ⊢
    cases fuel with
    | zero => simp at hf
    | succ f =>
      rw [splitGo_succ_cons]
      rw [if_neg (fun hcond => hno 0 (by simp) (by
        simpa [List.drop_zero] using List.isPrefixOf_iff_prefix.mp hcond.2))]
      rw [ih u f (c :: acc) (by simpa using hf)
        (fun i hi => by
          simpa [List.drop_succ_cons] using
            hno (i + 1) (by simpa using Nat.succ_lt_succ hi))]
      simp

lemma joinPositions_cons_cons (sepLen : Nat) (t u : Str) (r : List Str) :
    joinPositions sepLen (t :: u :: r) =
      t.length ::
        (joinPositions sepLen (u :: r)).map (· + (t.length + sepLen)) := rfl

lemma joinPositions_ge (sepLen : Nat) (t : Str) (rest : List Str) (p : Nat)
    (hp : p ∈ joinPositions sepLen (t :: rest)) : t.length ≤ p := by
  cases rest with
  | nil => simp [joinPositions] at hp
  | cons u us =>
    rw [joinPositions_cons_cons] at hp
    rcases List.mem_cons.mp hp with rfl | hp'
    · exact Nat.le_refl _
    · obtain ⟨q, _, rfl⟩ := List.mem_map.mp hp'
      omega

/-- C7 counterexample: with segments `["a", "a"]` and separator `"aa"`, no
segment contains the separator as a substring, yet
`format_thread_for_export` produces `"aaaa"`, which Python splits on
`"aa"` into `["", "", ""]`, not back into `["a", "a"]`: an occurrence of
the separator straddling a join boundary breaks the round trip. -/
theorem export_roundtrip_counterexample :
    (∀ t ∈ [['a'], ['a']], ¬ (['a', 'a'] <:+: t)) ∧
    format_thread_for_export [['a'], ['a']] ['a', 'a'] =
      ['a', 'a', 'a', 'a'] ∧
    pySplitSep ['a', 'a']
        (format_thread_for_export [['a'], ['a']] ['a', 'a']) =
      [[], [], []] ∧
    ([[], [], []] : List Str) ≠ [['a'], ['a']] := by
  decide

/-- C7 (amended): for every non-empty segment list and non-empty separator
such that the separator occurs in the exported string only at the join
positions, splitting `format_thread_for_export segs sep` on `sep` yields
back exactly `segs`.  (The original per-segment condition does not exclude
occurrences straddling a join boundary; the empty separator is excluded
because Python `str.split` raises on it.) -/
theorem export_roundtrip_amended (segs : List Str) (sep : Str)
    (hne : segs ≠ []) (hsep : sep ≠ [])
    (hocc : ∀ i, i < (format_thread_for_export segs sep).length →
      sep <+: (format_thread_for_export segs sep).drop i →
      i ∈ joinPositions sep.length segs) :
    pySplitSep sep (format_thread_for_export segs sep) = segs := by
  induction segs with
  | nil => exact absurd rfl hne
  | cons t rest ih =>
    cases rest with
    | nil =>
      have hjoin : format_thread_for_export [t] sep = t := rfl
      rw [hjoin] at hocc ⊢
      have hno : ∀ i, ¬ sep <+: t.drop i := by
        intro i hp
        by_cases hi : i < t.length
        · have := hocc i hi hp
          simp [joinPositions] at this
        · have hdrop : t.drop i = [] :=
            List.drop_eq_nil_of_le (by omega)
          rw [hdrop] at hp
          exact hsep (List.prefix_nil.mp hp)
      rw [pySplitSep, splitGo_no_occurrence sep hsep t t.length []
        (Nat.le_refl _) hno]
      simp
    | cons u us =>
      have hjoin : format_thread_for_export (t :: u :: us) sep =
          t ++ sep ++ format_thread_for_export (u :: us) sep :=
        pyJoin_cons_cons sep t u us
      have hsep1 : 1 ≤ sep.length := List.length_pos.mpr hsep
      rw [hjoin] at hocc ⊢
      have hlen : (t ++ sep ++ format_thread_for_export (u :: us) sep).length =
          t.length + sep.length +
            (format_thread_for_export (u :: us) sep).length := by
        simp [List.length_append]
        omega
      have hno : ∀ i, i < t.length →
          ¬ sep <+: (t ++ sep ++ format_thread_for_export (u :: us) sep).drop i := by
        intro i hi hp
        have hib : i < (t ++ sep ++ format_thread_for_export (u :: us) sep).length := by
          rw [hlen]; omega
        have hmem := hocc i hib hp
        rw [joinPositions_cons_cons] at hmem
        rcases List.mem_cons.mp hmem with rfl | hmem'
        · omega
        · obtain ⟨q, _, rfl⟩ := List.mem_map.mp hmem'
          omega
      rw [pySplitSep, splitGo_boundary sep hsep t _ _ [] (Nat.le_refl _) hno]
      have hocc2 : ∀ i, i < (format_thread_for_export (u :: us) sep).length →
          sep <+: (format_thread_for_export (u :: us) sep).drop i →
          i ∈ joinPositions sep.length (u :: us) := by
        intro i hi hp
        have hdrop : (t ++ sep ++ format_thread_for_export (u :: us) sep).drop
            (t.length + sep.length + i) =
              (format_thread_for_export (u :: us) sep).drop i := by
          rw [show t ++ sep ++ format_thread_for_export (u :: us) sep =
              (t ++ sep) ++ format_thread_for_export (u :: us) sep by
            simp [List.append_assoc]]
          rw [show t.length + sep.length + i = (t ++ sep).length + i by
            simp [List.length_append]]
          exact List.drop_append i
        have hib : t.length + sep.length + i <
            (t ++ sep ++ format_thread_for_export (u :: us) sep).length := by
          rw [hlen]; omega
        have hmem := hocc (t.length + sep.length + i) hib (by rw [hdrop]; exact hp)
        rw [joinPositions_cons_cons] at hmem
        rcases List.mem_cons.mp hmem with heq | hmem'
        · omega
        · obtain ⟨q, hq, hqe⟩ := List.mem_map.mp hmem'
          have : q = i := by omega
          subst this
          exact hq
      rw [ih (by simp) hocc2]
      simp

/-- Witness for C7 (amended) at segments `["a", "b"]` and separator `","`. -/
theorem export_roundtrip_amended_witness :
    pySplitSep [','] (format_thread_for_export [['a'], ['b']] [',']) =
      [['a'], ['b']] :=
  export_roundtrip_amended [['a'], ['b']] [','] (by decide) (by decide)
    (by decide)

/-! ### Lemmas about the posting pre-validation -/

lemma postLengthErrors_aux_nil_iff :
    ∀ (l : List Str) (i : Nat),
      enumIdx (fun i t =>
          if t.length > 280 then [PostError.tweetTooLong (i + 1) t.length]
          else []) i l = [] ↔
        ∀ t ∈ l, t.length ≤ 280 := by
  intro l
  induction l with
  | nil => intro i; simp [enumIdx]
  | cons t ts ih =>
    intro i
    rw [enumIdx]
    rw [List.append_eq_nil]
    constructor
    · rintro ⟨h1, h2⟩
      intro x hx
      rcases List.mem_cons.mp hx with rfl | hx'
      · by_cases hlen : x.length > 280
        · rw [if_pos hlen] at h1; simp at h1
        · omega
      · exact ((ih (i + 1)).mp h2) x hx'
    · intro h
      refine ⟨?_, (ih (i + 1)).mpr fun x hx => h x (by simp [hx])⟩
      have : t.length ≤ 280 := h t (by simp)
      rw [if_neg (by omega)]

lemma postLengthErrors_nil_iff (tweets : List Str) :
    postLengthErrors tweets = [] ↔ ∀ t ∈ tweets, t.length ≤ 280 :=
  postLengthErrors_aux_nil_iff tweets 0

lemma postLengthErrors_shape (tweets : List Str) :
    ∀ e ∈ postLengthErrors tweets,
      ∃ i l, e = PostError.tweetTooLong i l ∧ l > 280 := by
  intro e he
  obtain ⟨j, t, _, hb⟩ := enumIdx_mem _ tweets 0 e he
  by_cases hlen : t.length > 280
  · rw [if_pos hlen] at hb
    have : e = PostError.tweetTooLong (j + 1) t.length := by simpa using hb
    exact ⟨j + 1, t.length, this, hlen⟩
  · rw [if_neg hlen] at hb
    simp at hb

/-- C8 counterexample: `post_thread` reaches the posting loop on a thread
of 26 short tweets, recording no validation error — it never checks the
25-tweet chain limit before submitting. -/
theorem post_thread_validation_counterexample :
    (List.replicate 26 (['a'] : Str)).length > 25 ∧
    (post_thread_prevalidation (List.replicate 26 ['a'])).2 = true ∧
    (post_thread_prevalidation (List.replicate 26 ['a'])).1.errors = [] := by
  decide

/-- C8 (amended): before attempting any submission, `post_thread` validates
only that the tweet list is non-empty and that no tweet exceeds 280
characters; when a length check fails it submits nothing, returning
success count 0, no posted tweets, no thread URL, and only length
validation errors.  The 25-tweet chain limit is checked only by
`validate_thread_for_posting`, which `post_thread` does not invoke. -/
theorem post_thread_validation_amended (tweets : List Str) :
    ((post_thread_prevalidation tweets).2 = true ↔
      tweets ≠ [] ∧ ∀ t ∈ tweets, t.length ≤ 280) ∧
    ((∃ t ∈ tweets, t.length > 280) →
      (post_thread_prevalidation tweets).2 = false ∧
      (post_thread_prevalidation tweets).1.success_count = 0 ∧
      (post_thread_prevalidation tweets).1.posted_tweets = [] ∧
      (post_thread_prevalidation tweets).1.thread_url = none ∧
      ∀ e ∈ (post_thread_prevalidation tweets).1.errors,
        ∃ i l, e = PostError.tweetTooLong i l ∧ l > 280) ∧
    (tweets.length > 25 →
      VErr.tooLong ∈ validate_thread_for_posting tweets) := by
  refine ⟨?_, ?_, ?_⟩
  · by_cases hE : tweets.isEmpty
    · rw [post_thread_prevalidation, if_pos hE]
      have : tweets = [] := List.isEmpty_iff.mp hE
      subst this
      simp
    · have hne : tweets ≠ [] := fun h => hE (by simp [h])
      rw [post_thread_prevalidation, if_neg hE]
      by_cases herr : (postLengthErrors tweets).isEmpty
      · rw [if_pos herr]
        simp only [true_iff]
        exact ⟨hne, (postLengthErrors_nil_iff tweets).mp
          (List.isEmpty_iff.mp herr)⟩
      · rw [if_neg herr]
        simp only [Bool.false_eq_true, false_iff, not_and]
        intro _ hall
        exact herr (by
          rw [List.isEmpty_iff]
          exact (postLengthErrors_nil_iff tweets).mpr hall)
  · rintro ⟨t, ht, hlen⟩
    have hE : tweets.isEmpty = false := by
      cases tweets with
      | nil => simp at ht
      | cons a l => simp
    have herrne : postLengthErrors tweets ≠ [] := fun h => by
      have := (postLengthErrors_nil_iff tweets).mp h t ht
      omega
    have herr : (postLengthErrors tweets).isEmpty = false := by
      simpa [List.isEmpty_iff] using herrne
    rw [post_thread_prevalidation, if_neg (by simp [hE]), if_neg (by simp [herr])]
    exact ⟨rfl, rfl, rfl, rfl, postLengthErrors_shape tweets⟩
  · intro h25
    have hE : tweets.isEmpty = false := by
      cases tweets with
      | nil => simp at h25
      | cons a l => simp
    rw [validate_thread_for_posting, if_neg (by simp [hE]), if_pos h25]
    exact List.mem_append_left _ (by simp)

set_option maxRecDepth 8000 in
/-- Witness for C8 (amended): a single 281-character tweet stops
`post_thread` before any submission with only a length error, and a
26-tweet thread does trip the 25-tweet check of
`validate_thread_for_posting`. -/
theorem post_thread_validation_amended_witness :
    ((post_thread_prevalidation [List.replicate 281 'a']).2 = false ∧
      (post_thread_prevalidation [List.replicate 281 'a']).1.success_count = 0 ∧
      (post_thread_prevalidation [List.replicate 281 'a']).1.posted_tweets = [] ∧
      (post_thread_prevalidation [List.replicate 281 'a']).1.thread_url = none ∧
      ∀ e ∈ (post_thread_prevalidation [List.replicate 281 'a']).1.errors,
        ∃ i l, e = PostError.tweetTooLong i l ∧ l > 280) ∧
    VErr.tooLong ∈ validate_thread_for_posting (List.replicate 26 ['a']) :=
  ⟨(post_thread_validation_amended [List.replicate 281 'a']).2.1
      ⟨List.replicate 281 'a', by decide, by decide⟩,
    (post_thread_validation_amended (List.replicate 26 ['a'])).2.2 (by decide)⟩

/-! ### The over-length counterexample input (one million 265-character
words, each of which becomes its own chunk) -/

/-- A 265-character word: exactly `content_limit` characters long. -/
def cexWord : Str := List.replicate 265 'a'

/-- One million such words joined by single spaces. -/
def cexText : Str := joinWords (List.replicate 1000000 cexWord)

lemma cexWord_length : cexWord.length = 265 := by
  rw [cexWord]
  exact List.length_replicate 265 'a'

lemma cexWord_good : goodWord cexWord := by
  refine ⟨?_, ?_⟩
  · intro h
    have h0 := cexWord_length
    rw [h, List.length_nil] at h0
    exact absurd h0 (by norm_num)
  · intro c hc
    have : c = 'a' := List.eq_of_mem_replicate hc
    subst this
    rfl

lemma pySplit_cex : pySplit cexText = List.replicate 1000000 cexWord := by
  rw [cexText]
  refine pySplit_joinWords _ ?_
  intro w hw
  have : w = cexWord := List.eq_of_mem_replicate hw
  subst this
  exact cexWord_good

lemma cexText_not_space : cexText.all isPySpace = false := by
  cases h : cexText.all isPySpace
  · rfl
  · exfalso
    have h0 := pySplit_allSpace cexText h
    rw [pySplit_cex] at h0
    have hlen := congrArg List.length h0
    rw [List.length_replicate, List.length_nil] at hlen
    exact absurd hlen (by norm_num)

/-- The two branches of `stepWord`, as rewrite rules. -/
lemma stepWord_else {cl : Nat} {st : ChunkState} {word : Str}
    (h : ¬ (joinWords (st.current_chunk_words ++ [word])).length > cl) :
    stepWord cl st word =
      { st with current_chunk_words := st.current_chunk_words ++ [word] } := by
  unfold stepWord
  exact if_neg h

lemma stepWord_close {cl : Nat} {st : ChunkState} {word : Str}
    (h : (joinWords (st.current_chunk_words ++ [word])).length > cl) :
    stepWord cl st word =
      ⟨st.chunks ++
          (if st.current_chunk_words.isEmpty then []
           else [joinWords st.current_chunk_words]),
        st.chunksW ++
          (if st.current_chunk_words.isEmpty then []
           else [st.current_chunk_words]),
        [word],
        st.warnings ++
          (if word.length > cl then [CWarn.longWord (word.take 20) cl]
           else [])⟩ := by
  unfold stepWord
  exact if_pos h

lemma step_cex (cs : List Str) (csW : List (List Str)) (wr : List CWarn) :
    stepWord content_limit ⟨cs, csW, [cexWord], wr⟩ cexWord =
      ⟨cs ++ [cexWord], csW ++ [[cexWord]], [cexWord], wr⟩ := by
  have hcond : (joinWords (([cexWord] : List Str) ++ [cexWord])).length >
      content_limit := by
    show (joinWords [cexWord, cexWord]).length > content_limit
    rw [joinWords_cons_cons, joinWords_singleton]
    have hlen : (cexWord ++ ' ' :: cexWord).length = 531 := by
      rw [List.length_append, List.length_cons, cexWord_length]
    rw [hlen]
    norm_num [content_limit, MAX_TWEET_LENGTH, INDICATOR_RESERVE]
  have hnowarn : ¬ (cexWord.length > content_limit) := by
    rw [cexWord_length]
    norm_num [content_limit, MAX_TWEET_LENGTH, INDICATOR_RESERVE]
  rw [@stepWord_close content_limit ⟨cs, csW, [cexWord], wr⟩ cexWord hcond]
  rw [if_neg hnowarn]
  rw [show (([cexWord] : List Str).isEmpty) = false from rfl]
  rw [if_neg Bool.false_ne_true, if_neg Bool.false_ne_true]
  rw [joinWords_singleton, List.append_nil]

lemma fold_cex :
    ∀ (n : Nat) (cs : List Str) (csW : List (List Str)) (wr : List CWarn),
      List.foldl (stepWord content_limit) ⟨cs, csW, [cexWord], wr⟩
          (List.replicate n cexWord) =
        ⟨cs ++ List.replicate n cexWord, csW ++ List.replicate n [cexWord],
          [cexWord], wr⟩ := by
  intro n
  induction n with
  | zero => intro cs csW wr; simp
  | succ n ih =>
    intro cs csW wr
    rw [List.replicate_succ, List.foldl_cons, step_cex]
    rw [ih (cs ++ [cexWord]) (csW ++ [[cexWord]]) wr]
    simp [List.replicate_succ]

lemma chunkStateOf_cex :
    chunkStateOf cexText =
      ⟨List.replicate 999999 cexWord, List.replicate 999999 [cexWord],
        [cexWord], []⟩ := by
  rw [chunkStateOf, pySplit_cex]
  rw [show (1000000 : Nat) = 999999 + 1 by norm_num, List.replicate_succ,
    List.foldl_cons]
  have hstep0 : stepWord content_limit ⟨[], [], [], []⟩ cexWord =
      ⟨[], [], [cexWord], []⟩ := by
    have hcond : ¬ ((joinWords (([] : List Str) ++ [cexWord])).length >
        content_limit) := by
      show ¬ ((joinWords [cexWord]).length > content_limit)
      rw [joinWords_singleton, cexWord_length]
      norm_num [content_limit, MAX_TWEET_LENGTH, INDICATOR_RESERVE]
    rw [@stepWord_else content_limit ⟨[], [], [], []⟩ cexWord hcond]
    rfl
  rw [hstep0, fold_cex 999999 [] [] []]
  simp only [List.nil_append]

lemma chunkListsW_cex :
    chunkListsW cexText = List.replicate 1000000 [cexWord] := by
  rw [chunkListsW, chunkStateOf_cex]
  conv_rhs => rw [show (1000000 : Nat) = 999999 + 1 by norm_num,
    List.replicate_succ']
  rfl

lemma chunksOfText_cex :
    chunksOfText cexText = List.replicate 1000000 cexWord := by
  rw [chunksOfText, chunkStateOf_cex]
  conv_rhs => rw [show (1000000 : Nat) = 999999 + 1 by norm_num,
    List.replicate_succ']
  rfl

lemma getD_replicate {α : Type} (a d : α) :
    ∀ (n i : Nat), i < n → (List.replicate n a).getD i d = a := by
  intro n
  induction n with
  | zero => intro i h; omega
  | succ n ih =>
    intro i h
    rw [List.replicate_succ]
    cases i with
    | zero => rfl
    | succ i => simpa [List.getD] using ih i (by omega)

lemma decimal_1000000_length : (decimal 1000000).length = 7 := by
  rw [decimal, if_neg (by norm_num)]
  rw [decAux_fuel 1000000 7 1000000 [] (Nat.lt_pow_self (by norm_num) 1000000)
    (by norm_num)]
  decide

lemma chunk_text_fst (text : Str) (hsp : text.all isPySpace = false) :
    (chunk_text_for_twitter text).1 =
      (formatLoop (chunksOfText text).length 0 (chunksOfText text)).1 := by
  rw [chunk_text_eq text hsp]

lemma chunk_text_snd (text : Str) (hsp : text.all isPySpace = false) :
    (chunk_text_for_twitter text).2 =
      (chunkStateOf text).warnings ++
        (formatLoop (chunksOfText text).length 0 (chunksOfText text)).2 := by
  rw [chunk_text_eq text hsp]

lemma cex_total_segments : (chunk_text_for_twitter cexText).1.length = 1000000 := by
  rw [chunk_text_fst cexText cexText_not_space, formatLoop_fst_length,
    chunksOfText_cex, List.length_replicate]

lemma cex_segment_length :
    ((chunk_text_for_twitter cexText).1.getD 999999 []).length = 281 := by
  have hjn : (999999 : Nat) < (chunksOfText cexText).length := by
    rw [chunksOfText_cex, List.length_replicate]
    norm_num
  rw [chunk_text_fst cexText cexText_not_space,
    formatLoop_fst_getD _ _ 0 999999 hjn, Nat.zero_add]
  have hgd : (chunksOfText cexText).getD 999999 [] = cexWord := by
    rw [chunksOfText_cex]
    exact getD_replicate cexWord [] 1000000 999999 (by norm_num)
  have hN : (chunksOfText cexText).length = 1000000 := by
    rw [chunksOfText_cex, List.length_replicate]
  rw [hgd, hN, formatChunk, indicatorStr]
  rw [show (999999 : Nat) + 1 = 1000000 by norm_num]
  rw [List.length_append, List.length_cons, List.length_append,
    List.length_cons, cexWord_length, decimal_1000000_length]

/-- C3 counterexample: on one million words of 265 characters each, the
last formatted segment is `281` characters long — over `MAX_TWEET_LENGTH`
— although its chunk is a single word of length `265 ≤ content_limit`: the
15-character indicator `1000000/1000000` plus the space exceeds the
reserve, so an over-length segment does not require an oversized word. -/
theorem segment_over_limit_counterexample :
    (chunk_text_for_twitter cexText).1.length = 1000000 ∧
    ((chunk_text_for_twitter cexText).1.getD 999999 []).length = 281 ∧
    MAX_TWEET_LENGTH = 280 ∧
    (chunkListsW cexText).getD 999999 [] = [cexWord] ∧
    cexWord.length ≤ content_limit := by
  refine ⟨cex_total_segments, cex_segment_length, rfl, ?_, ?_⟩
  · rw [chunkListsW_cex]
    exact getD_replicate [cexWord] [] 1000000 999999 (by norm_num)
  · rw [cexWord_length]
    norm_num [content_limit, MAX_TWEET_LENGTH, INDICATOR_RESERVE]

/-- C3 (amended): a formatted segment exceeds `MAX_TWEET_LENGTH` only when
its chunk is a single word longer than `content_limit`, or when the thread
indicator itself occupies at least `INDICATOR_RESERVE` characters
(possible only for threads of at least a million chunks); and every
over-length segment is accompanied by a warning carrying its 1-based
index, the total, and the actual length. -/
theorem segment_over_limit_amended (text : Str) (j : Nat)
    (hj : j < (chunk_text_for_twitter text).1.length)
    (hover : ((chunk_text_for_twitter text).1.getD j []).length >
      MAX_TWEET_LENGTH) :
    ((∃ w, (chunkListsW text).getD j [] = [w] ∧
        w.length > content_limit) ∨
      (indicatorStr (j + 1)
          (chunk_text_for_twitter text).1.length).length ≥
        INDICATOR_RESERVE) ∧
    CWarn.overLong (j + 1) (chunk_text_for_twitter text).1.length
        (((chunk_text_for_twitter text).1.getD j []).length) ∈
      (chunk_text_for_twitter text).2 := by
  have hsp : text.all isPySpace = false := by
    cases h : text.all isPySpace
    · rfl
    · exfalso
      have h0 : chunk_text_for_twitter text = ([], []) := by
        simp [chunk_text_for_twitter, h]
      rw [h0] at hj
      simp at hj
  have hfst := chunk_text_fst text hsp
  have hsnd := chunk_text_snd text hsp
  have hlen : (chunk_text_for_twitter text).1.length =
      (chunksOfText text).length := by
    rw [hfst, formatLoop_fst_length]
  have hjn : j < (chunksOfText text).length := by rwa [hlen] at hj
  have hget : (chunk_text_for_twitter text).1.getD j [] =
      formatChunk (chunksOfText text).length j
        ((chunksOfText text).getD j []) := by
    rw [hfst, formatLoop_fst_getD _ _ 0 j hjn, Nat.zero_add]
  constructor
  · by_cases hind : (indicatorStr (j + 1)
        (chunk_text_for_twitter text).1.length).length ≥ INDICATOR_RESERVE
    · exact Or.inr hind
    · refine Or.inl ?_
      have hseg : ((chunk_text_for_twitter text).1.getD j []).length =
          ((chunksOfText text).getD j []).length + 1 +
            (indicatorStr (j + 1) (chunksOfText text).length).length := by
        rw [hget, formatChunk]
        rw [List.length_append, List.length_cons]
        omega
      have hindlen : (indicatorStr (j + 1)
          (chunksOfText text).length).length ≤ 14 := by
        rw [← hlen]
        have h15 : INDICATOR_RESERVE = 15 := rfl
        omega
      have h280 : MAX_TWEET_LENGTH = 280 := rfl
      have h265 : content_limit = 265 := rfl
      have hchunk : ((chunksOfText text).getD j []).length >
          content_limit := by
        omega
      have hjw : j < (chunkListsW text).length := by
        rw [chunksOfText_eq_map, List.length_map] at hjn
        exact hjn
      have hmap : (chunksOfText text).getD j [] =
          joinWords ((chunkListsW text).getD j []) := by
        rw [chunksOfText_eq_map]
        exact getD_map joinWords (chunkListsW text) j [] [] hjw
      have hwsmem : (chunkListsW text).getD j [] ∈ chunkListsW text :=
        getD_mem (chunkListsW text) j [] hjw
      rcases chunkListsW_size text _ hwsmem with hle | hex
      · exfalso
        rw [hmap] at hchunk
        omega
      · obtain ⟨w, hwe, hwl, _⟩ := hex
        exact ⟨w, hwe, hwl⟩
  · have hoverF : (formatChunk (chunksOfText text).length (0 + j)
        ((chunksOfText text).getD j [])).length > MAX_TWEET_LENGTH := by
      rw [Nat.zero_add, ← hget]
      exact hover
    have hw := formatLoop_warn (chunksOfText text).length (chunksOfText text)
      0 j hjn hoverF
    rw [Nat.zero_add] at hw
    rw [hsnd, hlen, hget]
    exact List.mem_append_right _ hw

/-- Witness for C3 (amended) at the million-word counterexample input,
whose last segment (index 999999) is 281 characters long. -/
theorem segment_over_limit_amended_witness :
    ((∃ w, (chunkListsW cexText).getD 999999 [] = [w] ∧
        w.length > content_limit) ∨
      (indicatorStr (999999 + 1)
          (chunk_text_for_twitter cexText).1.length).length ≥
        INDICATOR_RESERVE) ∧
    CWarn.overLong (999999 + 1) (chunk_text_for_twitter cexText).1.length
        (((chunk_text_for_twitter cexText).1.getD 999999 []).length) ∈
      (chunk_text_for_twitter cexText).2 :=
  segment_over_limit_amended cexText 999999
    (by rw [cex_total_segments]; norm_num)
    (by
      rw [cex_segment_length]
      norm_num [MAX_TWEET_LENGTH])
